import Mathlib

/-!
Verification of the Session Orchestrator of the relay (src/relay-core.ts,
src/terminal-relay.ts): context budget tracker, flush scheduler, turn
segmenter, approval gate, single-flight request queue, and the transcript
stream decoder.  Each component is embedded as executable Lean definitions
translated from the TypeScript source; the claims of the specification are
then proved or refuted against these definitions.
-/

namespace Relay

/-! ## Context Budget Tracker (relay-core.ts, class ContextTracker) -/

def CONTEXT_WINDOW : ℕ := 200000

def SYSTEM_PROMPT_ESTIMATE : ℕ := 18000

def TOOL_OVERHEAD_PER_TURN : ℕ := 500

/-- State of `class ContextTracker`: `tokens`, and the two one-shot warning
flags `warnings.pct10` / `warnings.pct5`.  (`lastCompactionNotified` plays no
role in the claims and is omitted.) -/
structure ContextTracker where
  tokens : ℕ
  pct10 : Bool
  pct5 : Bool
deriving Repr, DecidableEq

/-- Construction / `reset()`: `tokens = SYSTEM_PROMPT_ESTIMATE`, both flags
cleared. -/
def ContextTracker.init : ContextTracker :=
  ⟨SYSTEM_PROMPT_ESTIMATE, false, false⟩

/-- `addTokens(n): this.tokens += n`.  All call sites pass a non-negative
amount (`charsToTokens(len) = Math.ceil(len/3.5)` or `TOOL_OVERHEAD_PER_TURN`),
so the argument is ℕ. -/
def addTokens (s : ContextTracker) (n : ℕ) : ContextTracker :=
  { s with tokens := s.tokens + n }

/-- `setTokens(n): this.tokens = n` — absolute override from backend usage. -/
def setTokens (s : ContextTracker) (n : ℕ) : ContextTracker :=
  { s with tokens := n }

/-- `usedPct(): Math.min(100, Math.round(this.tokens / CONTEXT_WINDOW * 100))`.
For non-negative integer `t`, `Math.round(t / 2000)` equals the integer
division `(t + 1000) / 2000` (round half away from zero = floor of x + 1/2). -/
def usedPct (s : ContextTracker) : ℕ :=
  min 100 ((s.tokens + 1000) / 2000)

/-- `remainingPct(): 100 - this.usedPct()`. -/
def remainingPct (s : ContextTracker) : ℕ :=
  100 - usedPct s

/-- The two warning messages `checkWarnings` can produce, as tags:
`pct5w` is the "Compaction imminent" message (≤5% left), `pct10w` the
"Compaction approaching" message (≤10% left). -/
inductive Warning
  | pct5w
  | pct10w
deriving Repr, DecidableEq

/-- `checkWarnings()`: fires the ≤5% warning first if `remaining <= 5` and its
flag is unset (setting the flag), else the ≤10% warning if `remaining <= 10`
and its flag is unset, else null.  Returns the message (if any) and the
updated tracker. -/
def checkWarnings (s : ContextTracker) : Option Warning × ContextTracker :=
  if remainingPct s ≤ 5 ∧ s.pct5 = false then
    (some .pct5w, { s with pct5 := true })
  else if remainingPct s ≤ 10 ∧ s.pct10 = false then
    (some .pct10w, { s with pct10 := true })
  else
    (none, s)

/-- Operations a run performs on the tracker between resets. -/
inductive COp
  | add (n : ℕ)
  | set (n : ℕ)
  | check
deriving Repr, DecidableEq

/-- Run a sequence of tracker operations; collect the output of every
`checkWarnings` call in order. -/
def runOps : ContextTracker → List COp → ContextTracker × List (Option Warning)
  | s, [] => (s, [])
  | s, .add n :: rest => runOps (addTokens s n) rest
  | s, .set n :: rest => runOps (setTokens s n) rest
  | s, .check :: rest =>
    let p := checkWarnings s
    let r := runOps p.2 rest
    (r.1, p.1 :: r.2)

/-- True when the operation list contains no `setTokens` call. -/
def noSet : List COp → Bool
  | [] => true
  | .set _ :: _ => false
  | _ :: rest => noSet rest

/-- Scenario E operation sequence: reach ≤10% remaining, check twice, then
reach ≤5% remaining, check twice. -/
def scenarioE : List COp :=
  [.set 180000, .check, .check, .set 192000, .check, .check]

/-! ## String primitives with JavaScript semantics, over List Char -/

/-- Whether `pat` is an initial segment of `s` (second argument is the
pattern). -/
def listStartsWith : List Char → List Char → Bool
  | _, [] => true
  | [], _ :: _ => false
  | a :: s, b :: p => a == b && listStartsWith s p

/-- Index (counting from `i`) of the last position of `s` at which `pat`
begins, scanning all positions `i .. i + s.length` like JS `lastIndexOf`. -/
def lastIdxAux (pat : List Char) : List Char → ℕ → Option ℕ
  | [], i => if listStartsWith [] pat then some i else none
  | c :: rest, i =>
    match lastIdxAux pat rest (i + 1) with
    | some j => some j
    | none => if listStartsWith (c :: rest) pat then some i else none

/-- `String.prototype.lastIndexOf`: index of the last occurrence of `pat`
in `s`, or -1 when absent. -/
def jsLastIndexOf (s pat : List Char) : Int :=
  match lastIdxAux pat s 0 with
  | some i => (i : Int)
  | none => -1

/-- `String.prototype.includes`. -/
def jsIncludes (s pat : List Char) : Bool :=
  (lastIdxAux pat s 0).isSome

/-- JS whitespace for `trim` (the characters that occur in this codebase). -/
def isWs (c : Char) : Bool :=
  c == ' ' || c == '\n' || c == '\t' || c == '\r'

/-- `String.prototype.trim`: strip whitespace from both ends. -/
def jsTrim (s : List Char) : List Char :=
  ((s.dropWhile isWs).reverse.dropWhile isWs).reverse

/-- The paragraph-break pattern `"\n\n"`. -/
def paraPat : List Char := ['\n', '\n']

/-! ## Flush Scheduler (relay-core.ts, callAgent, Telegram channel) -/

/-- Cut-point selection of the flush block (relay-core.ts lines 947-969):
last `"\n\n"` when the paragraph trigger fired (only if at positive index),
else last sentence-ending pair past 30% of the length, else last space past
30%, else the whole unsent length.  The JS comparison
`sentenceEnd > unsent.length * 0.3` is modelled exactly as the rational
comparison `3·length < 10·sentenceEnd`; for the string lengths arising here
the double-precision evaluation of `length * 0.3` agrees with the exact
rational, so the embedding is faithful. -/
def computeFlushEnd (unsent : List Char) (hasPara : Bool) : ℕ :=
  if hasPara then
    let paraIdx := jsLastIndexOf unsent paraPat
    if 0 < paraIdx then paraIdx.toNat else unsent.length
  else
    let sentenceEnd :=
      max (max (jsLastIndexOf unsent ['.', ' ']) (jsLastIndexOf unsent ['.', '\n']))
          (max (jsLastIndexOf unsent ['?', ' ']) (jsLastIndexOf unsent ['!', ' ']))
    if 3 * (unsent.length : Int) < 10 * sentenceEnd then (sentenceEnd + 1).toNat
    else
      let lastSpace := jsLastIndexOf unsent [' ']
      if 3 * (unsent.length : Int) < 10 * lastSpace then lastSpace.toNat
      else unsent.length

/-- New-turn detection of the Telegram channel (relay-core.ts line 931):
`text.length < currentTurnText.length && currentTurnText`. -/
def tgIsNewTurn (t cur : List Char) : Bool :=
  decide (t.length < cur.length) && !cur.isEmpty

/-- State of the streaming loop of `callAgent` (Telegram): the current turn
text, the sent offset `currentTurnSent`, the last flush time, the archived
turns `allResponses`, plus two ghost logs — the chunks passed to
`sendResponse`, and for each such chunk the triple
(turn index at emission, start offset, stop offset). -/
structure FlushState where
  currentTurnText : List Char
  currentTurnSent : ℕ
  lastFlush : ℕ
  allResponses : List (List Char)
  log : List (ℕ × ℕ × ℕ)
  sentChunks : List (List Char)
deriving Repr, DecidableEq

/-- Loop-entry state: empty turn, offset 0, `lastFlush = Date.now()`. -/
def initFlush (start : ℕ) : FlushState :=
  ⟨[], 0, start, [], [], []⟩

/-- Events of the stream loop that touch the turn/flush variables:
an assistant text message carrying the accumulated turn text (with the
current clock), the final result message, and any other message. -/
inductive TEvent
  | text (t : List Char) (now : ℕ)
  | result
  | other
deriving Repr, DecidableEq

/-- Turn-segmentation part of the text branch: on a new turn archive the old
text and reset the sent offset, else replace the text. -/
def archiveStep (s : FlushState) (t : List Char) : FlushState :=
  if tgIsNewTurn t s.currentTurnText then
    { s with allResponses := s.allResponses ++ [s.currentTurnText],
             currentTurnText := t, currentTurnSent := 0 }
  else
    { s with currentTurnText := t }

/-- Flush part of the text branch: evaluate the three triggers on the unsent
tail, and on a trigger cut at `computeFlushEnd`, emit the trimmed chunk if
nonempty, and advance the sent offset by the cut length. -/
def flushStep (s : FlushState) (now : ℕ) : FlushState :=
  let unsent := s.currentTurnText.drop s.currentTurnSent
  let hasPara := jsIncludes unsent paraPat && decide (unsent.length > 80)
  let isLarge := decide (unsent.length > 400)
  let isStale := decide ((now : Int) - (s.lastFlush : Int) > 3000) && decide (unsent.length > 40)
  if hasPara || isLarge || isStale then
    let fe := computeFlushEnd unsent hasPara
    let chunk := jsTrim (unsent.take fe)
    if chunk.isEmpty then s
    else
      { s with
          sentChunks := s.sentChunks ++ [chunk],
          log := s.log ++ [(s.allResponses.length, s.currentTurnSent, s.currentTurnSent + fe)],
          currentTurnSent := s.currentTurnSent + fe,
          lastFlush := now }
  else s

/-- One iteration of the `for await` loop of `callAgent` restricted to the
turn/flush variables.  On `result`, archive the current turn and force-flush
the remaining unsent tail (the push of `resultMsg.result` when nothing was
accumulated only affects the saved transcript, not these variables, and is
omitted). -/
def stepT (s : FlushState) : TEvent → FlushState
  | .other => s
  | .text t now => if t.isEmpty then s else flushStep (archiveStep s t) now
  | .result =>
    let tid := s.allResponses.length
    let s1 :=
      if s.currentTurnText.isEmpty then s
      else { s with allResponses := s.allResponses ++ [s.currentTurnText] }
    let remaining := jsTrim (s.currentTurnText.drop s.currentTurnSent)
    if remaining.isEmpty then s1
    else
      { s1 with
          sentChunks := s1.sentChunks ++ [remaining],
          log := s1.log ++ [(tid, s.currentTurnSent, s.currentTurnText.length)] }

/-- Run the loop over a list of events. -/
def runT (s : FlushState) (events : List TEvent) : FlushState :=
  events.foldl stepT s

/-- Ordering between two consecutive emission records: a strictly later turn,
or the same turn with the second chunk starting exactly where the first
stopped. -/
def logOrd (a b : ℕ × ℕ × ℕ) : Prop :=
  a.1 < b.1 ∨ (a.1 = b.1 ∧ b.2.1 = a.2.2)

/-- The word-boundary property the specification claims for a cut index:
the character at the cut index is a space or a newline (true at every
paragraph-break cut, sentence-end cut and space cut; false at a hard cut
inside a word). -/
def claimBoundary (u : List Char) (i : ℕ) : Bool :=
  match u[i]? with
  | some c => c == ' ' || c == '\n'
  | none => false

/-! ## Turn Segmenter, terminal channel (terminal-relay.ts lines 282-297) -/

/-- New-turn detection of the terminal channel:
`(msgUuid && currentMsgUuid && msgUuid !== currentMsgUuid) ||
 (!msgUuid && text.length < currentTurnText.length && currentTurnText)`. -/
def termIsNewTurn (msgUuid currentMsgUuid : String) (t cur : List Char) : Bool :=
  (!(msgUuid == "") && !(currentMsgUuid == "") && msgUuid != currentMsgUuid) ||
  ((msgUuid == "") && decide (t.length < cur.length) && !cur.isEmpty)

/-- State of the terminal streaming loop: current turn text, printed offset,
current message uuid, archived turns, and the ghost log of printed pieces. -/
structure TermState where
  currentTurnText : List Char
  currentTurnPrinted : ℕ
  currentMsgUuid : String
  allResponses : List (List Char)
  printed : List (List Char)
deriving Repr, DecidableEq

/-- Text branch of the terminal loop: detect a new turn (uuid change, or the
length heuristic when no uuid), record the uuid, archive on a new turn, then
print the not-yet-printed suffix. -/
def termStep (s : TermState) (msgUuid : String) (t : List Char) : TermState :=
  if t.isEmpty then s
  else
    let isNew := termIsNewTurn msgUuid s.currentMsgUuid t s.currentTurnText
    let s1 :=
      if msgUuid == "" then s else { s with currentMsgUuid := msgUuid }
    let s2 :=
      if isNew then
        { s1 with allResponses := s1.allResponses ++ [s1.currentTurnText],
                  currentTurnText := t, currentTurnPrinted := 0 }
      else { s1 with currentTurnText := t }
    let newContent := s2.currentTurnText.drop s2.currentTurnPrinted
    if newContent.isEmpty then s2
    else
      { s2 with printed := s2.printed ++ [newContent],
                currentTurnPrinted := s2.currentTurnText.length }

/-- Scenario B event sequence for the Telegram segmenter. -/
def scenarioB : List TEvent :=
  [.text "Hi".toList 0, .text "Hi there".toList 0,
   .text "Hi there!".toList 0, .text "Sure,".toList 0]

/-! ## Single-Flight Request Queue (relay-core.ts, enqueue) -/

/-- State of the message queue: the `processing` flag, the FIFO
`messageQueue` (entries as numeric ids), plus ghost logs: handlers started in
order, callers notified of deferral, and all arrivals in order. -/
structure QState where
  processing : Bool
  queue : List ℕ
  started : List ℕ
  notified : List ℕ
  arrivals : List ℕ
deriving Repr, DecidableEq

def QState.init : QState := ⟨false, [], [], [], []⟩

/-- Queue events: a new request arrives (`enqueue` is called), or the active
handler completes — `ok` tells whether it returned normally or threw. -/
inductive QEvent
  | arrive (id : ℕ)
  | complete (ok : Bool)
deriving Repr, DecidableEq

/-- `enqueue` and its finally-block, as one atomic step each.  An arrival
while busy is appended and the caller notified; while idle it starts at once.
Completion (normal or thrown — the finally-block ignores which)
unconditionally dequeues and starts the next entry if any, else clears the
busy flag.  The recursive re-invocation `enqueue(next.ctx, next.handler)`
runs synchronously through its idle branch, so its net effect is the
dequeue-and-start modelled here.  A `complete` without an active handler
cannot occur and is a no-op. -/
def stepQ (s : QState) : QEvent → QState
  | .arrive i =>
    if s.processing then
      { s with queue := s.queue ++ [i], notified := s.notified ++ [i],
               arrivals := s.arrivals ++ [i] }
    else
      { s with processing := true, started := s.started ++ [i],
               arrivals := s.arrivals ++ [i] }
  | .complete _ =>
    if s.processing then
      match s.queue with
      | [] => { s with processing := false }
      | h :: rest => { s with queue := rest, started := s.started ++ [h] }
    else s

def runQ (events : List QEvent) : QState :=
  events.foldl stepQ QState.init

/-- Scenario A: one request starts, three more arrive while it is active,
then the four handlers complete one after another (the second one throwing).
-/
def scenarioA : List QEvent :=
  [.arrive 0, .arrive 1, .arrive 2, .arrive 3,
   .complete true, .complete false, .complete true, .complete true]

/-! ## Approval Gate (relay-core.ts requestTelegramApproval + callback_query
handler; terminal-relay.ts requestTerminalApproval) -/

def APPROVAL_TIMEOUT_MS : ℕ := 600000

/-- Lifecycle state of one Telegram approval: whether its 10-minute timer is
still armed, whether its id is still in `pendingApprovals`, the values passed
to its promise `resolve` in order (true = approved), and how many button
presses were answered "Expired". -/
structure AState where
  armed : Bool
  pending : Bool
  resolved : List Bool
  expired : ℕ
deriving Repr, DecidableEq

/-- State at creation: timer armed, entry in the pending map. -/
def AState.init : AState := ⟨true, true, [], 0⟩

/-- Events that can reach one approval: an authorized button press carrying
approve/reject, or the firing of its timeout timer. -/
inductive AEvent
  | press (approve : Bool)
  | fire
deriving Repr, DecidableEq

/-- The two handlers, each atomic on the JS event loop.  Timer fires (only
possible while armed — `clearTimeout` in the press handler disarms it):
delete from the map and resolve false.  Press: if the id is in the map,
clear the timer, delete, and resolve with the decision; otherwise answer
"Expired" and change nothing. -/
def stepA (s : AState) : AEvent → AState
  | .fire =>
    if s.armed then
      { s with armed := false, pending := false, resolved := s.resolved ++ [false] }
    else s
  | .press d =>
    if s.pending then
      { s with armed := false, pending := false, resolved := s.resolved ++ [d] }
    else { s with expired := s.expired + 1 }

def runA (events : List AEvent) : AState :=
  events.foldl stepA AState.init

/-- Terminal Y/N approval (terminal-relay.ts lines 88-101): the promise
resolves exactly when the readline answer arrives; an answer whose lowercase
form starts with "y" approves, anything else rejects.  There is no timer and
no pending map: with no answer (`none`) the promise never resolves. -/
def terminalResolve (answer : Option (List Char)) : Option Bool :=
  answer.map (fun a =>
    match a.map Char.toLower with
    | 'y' :: _ => true
    | _ => false)

/-! ## Stream Decoder (transcript sync: parseLine and the syncFile loop) -/

/-- JSON values as produced by `JSON.parse`. -/
inductive Json
  | null
  | bool (b : Bool)
  | num (n : Int)
  | str (s : String)
  | arr (elems : List Json)
  | obj (fields : List (String × Json))

/-- Object property access `d.k`: `none` plays the role of `undefined`
(also for access on primitives; access on JS `null` throws, but every such
access in `parseLine` is inside its try/catch and yields the same `null`
result, so `none` is a faithful model there).  Duplicate keys keep the last,
as `JSON.parse` does. -/
def getField : Json → String → Option Json
  | .obj fields, k => ((fields.filter (fun p => p.1 == k)).getLast?).map (·.2)
  | _, _ => none

/-- JS truthiness of a parsed JSON value. -/
def truthy : Json → Bool
  | .null => false
  | .bool b => b
  | .num n => !(n == 0)
  | .str s => !(s == "")
  | .arr _ => true
  | .obj _ => true

/-- `x || dflt` on an optional field. -/
def jsOrDefault (v : Option Json) (dflt : Json) : Json :=
  match v with
  | some j => if truthy j then j else dflt
  | none => dflt

def SKIP_TYPES : List String :=
  ["file-history-snapshot", "progress", "queue-operation", "system"]

/-- `skipTypes.has(d.type)`: only an exact string member matches. -/
def skipType (d : Json) : Bool :=
  match getField d "type" with
  | some (.str t) => SKIP_TYPES.contains t
  | _ => false

/-- Element stringification of `Array.prototype.join`: null/undefined become
the empty string.  A `text` field that is itself an array or object (never
produced by the CLI) is abstracted to `""`; this affects only the joined text
of such pathological blocks, never whether a line parses. -/
def joinElem : Option Json → String
  | none => ""
  | some .null => ""
  | some (.str s) => s
  | some (.bool b) => if b then "true" else "false"
  | some (.num n) => toString n
  | some (.arr _) => ""
  | some (.obj _) => ""

/-- `content.filter(b => b.type === "text").map(b => b.text)` followed by
`.join("")`. -/
def joinTextBlocks (blocks : List Json) : List (Option Json) × String :=
  let parts :=
    (blocks.filter (fun b =>
      match getField b "type" with
      | some (.str "text") => true
      | _ => false)).map (fun b => getField b "text")
  (parts, String.join (parts.map joinElem))

/-- A decoded transcript line: `user_text` or `assistant_text`, the text, and
the raw timestamp/sessionId values. -/
structure ParsedMessage where
  isUser : Bool
  text : String
  timestamp : Json
  sessionId : Json

/-- `parseLine` (transcript sync): the input is the outcome of
`JSON.parse(line)` — `.error` when the line is malformed JSON and the parser
threw (the surrounding try/catch turns that into null).  `nowIso` stands for
`new Date().toISOString()`.  Total by construction: every input yields
`some` message or `none`, never an exception. -/
def parseLine (nowIso : String) (line : Except Unit Json) : Option ParsedMessage :=
  match line with
  | .error _ => none
  | .ok d =>
    if skipType d then none
    else
      match getField d "message" with
      | none => none
      | some msg =>
        if !truthy msg then none
        else
          let timestamp := jsOrDefault (getField d "timestamp") (.str nowIso)
          let sessionId := jsOrDefault (getField d "sessionId") (.str "")
          match getField d "type", getField msg "role", getField msg "content" with
          | some (.str "user"), some (.str "user"), some (.str content) =>
            some ⟨true, content, timestamp, sessionId⟩
          | dType, mRole, mContent =>
            match dType, mRole, mContent with
            | some (.str "assistant"), some (.str "assistant"), some (.arr blocks) =>
              let tb := joinTextBlocks blocks
              if tb.1.length > 0 then some ⟨false, tb.2, timestamp, sessionId⟩
              else none
            | _, _, _ => none

/-- The decode-and-skip skeleton of the `syncFile` loop:
`const parsed = parseLine(lines[i]); if (!parsed) continue;` — every
non-parsing line is skipped silently, the parsed messages are handled in
their original order. -/
def syncProcess (nowIso : String) : List (Except Unit Json) → List ParsedMessage
  | [] => []
  | l :: rest =>
    match parseLine nowIso l with
    | none => syncProcess nowIso rest
    | some p => p :: syncProcess nowIso rest

/-- Exactly-once invariant of one Telegram approval: either unresolved with
timer armed and entry pending, or resolved exactly once with timer disarmed
and entry removed. -/
def AInv (s : AState) : Prop :=
  (s.resolved = [] ∧ s.armed = true ∧ s.pending = true) ∨
  (s.resolved.length = 1 ∧ s.armed = false ∧ s.pending = false)

/-! ## Spec-side cut-point selection (for the refinement proof of the flush
cut), and concrete flush scenarios -/

/-- Encode an optional index the way JS `lastIndexOf` reports it: the index,
or -1 for no occurrence. -/
def optIdx : Option ℕ → Int
  | some i => (i : Int)
  | none => -1

/-- The greatest `k ≤ n` with `p k`, scanning downward ("the last ..."). -/
def specGreatest (p : ℕ → Bool) : ℕ → Option ℕ
  | 0 => if p 0 then some 0 else none
  | n + 1 => if p (n + 1) then some (n + 1) else specGreatest p n

/-- A paragraph break (`"\n\n"`) begins at index `i`. -/
def paraBreakAt (u : List Char) (i : ℕ) : Bool :=
  u[i]? == some '\n' && u[i + 1]? == some '\n'

/-- One of the sentence-ending pairs `". "`, `".\n"`, `"? "`, `"! "` begins
at index `i`. -/
def sentenceEndAt (u : List Char) (i : ℕ) : Bool :=
  ((u[i]? == some '.' && u[i + 1]? == some ' ') ||
   (u[i]? == some '.' && u[i + 1]? == some '\n')) ||
  ((u[i]? == some '?' && u[i + 1]? == some ' ') ||
   (u[i]? == some '!' && u[i + 1]? == some ' '))

/-- A space character sits at index `i`. -/
def spaceAt (u : List Char) (i : ℕ) : Bool :=
  u[i]? == some ' '

/-- Modelled from the spec's cut-point rules (3) and (4): the last space
character provided it lies past 30% of the unsent length, else the end of
`unsent`. -/
def specCutSpace (u : List Char) : ℕ :=
  match specGreatest (spaceAt u) u.length with
  | some i => if 3 * u.length < 10 * i then i else u.length
  | none => u.length

/-- Modelled from the spec's cut-point selection in priority order, amended
at rule (1) as the code forces: (1) the last paragraph break when the
paragraph-break trigger fired — provided that break is at a positive index;
when the only/last paragraph break starts at index 0 the cut falls through to
the end of `unsent`; (2) otherwise the last sentence-ending punctuation pair
past 30% of the unsent length; (3) otherwise the last space past 30%;
(4) otherwise the end of `unsent` (hard cut). -/
def specCut (u : List Char) (paraTrigger : Bool) : ℕ :=
  if paraTrigger then
    match specGreatest (paraBreakAt u) u.length with
    | some i => if 0 < i then i else u.length
    | none => u.length
  else
    match specGreatest (sentenceEndAt u) u.length with
    | some i => if 3 * u.length < 10 * i then i + 1 else specCutSpace u
    | none => specCutSpace u

/-- Scenario C unsent tail: 500 characters whose (only and last) paragraph
break is at position 120. -/
def scenarioCTail : List Char :=
  List.replicate 120 'a' ++ paraPat ++ List.replicate 378 'b'

/-- A 401-character unsent tail with no space, newline or punctuation: the
`> 400` trigger fires and the cut is the hard cut at the end, mid-word. -/
def hardCutTail : List Char :=
  List.replicate 401 'a'

/-- An unsent tail of 83 characters whose only paragraph break starts at
index 0: the paragraph trigger fires, yet the code does not cut at the break
(it requires a positive index) and falls through to the end. -/
def paraAtZeroTail : List Char :=
  paraPat ++ List.replicate 81 'a'

/-- Per-state invariant of the flush loop: the sent offset stays within the
current turn text; every logged emission has its turn index bounded by the
archive count and a well-formed interval; consecutive emissions are for
non-decreasing turns, and within one turn each chunk starts exactly where the
previous one stopped; and the last emission of the still-current turn stops
exactly at the current sent offset. -/
def FInv (s : FlushState) : Prop :=
  s.currentTurnSent ≤ s.currentTurnText.length ∧
  (∀ r ∈ s.log, r.1 ≤ s.allResponses.length ∧ r.2.1 ≤ r.2.2) ∧
  List.Chain' logOrd s.log ∧
  (∀ r, s.log.getLast? = some r → r.1 = s.allResponses.length →
    r.2.2 = s.currentTurnSent)

/-! ### Tracker lemmas -/

theorem checkWarnings_tokens (s : ContextTracker) :
    (checkWarnings s).2.tokens = s.tokens := by
  unfold checkWarnings
  split <;> try split
  all_goals rfl

theorem checkWarnings_pct10_mono (s : ContextTracker) (h : s.pct10 = true) :
    (checkWarnings s).2.pct10 = true := by
  unfold checkWarnings
  split <;> try split
  all_goals simp_all

theorem checkWarnings_pct5_mono (s : ContextTracker) (h : s.pct5 = true) :
    (checkWarnings s).2.pct5 = true := by
  unfold checkWarnings
  split <;> try split
  all_goals simp_all

theorem checkWarnings_no10 (s : ContextTracker) (h : s.pct10 = true) :
    (checkWarnings s).1 ≠ some .pct10w := by
  unfold checkWarnings
  split
  · simp
  · split
    · rename_i hc
      simp [h] at hc
    · simp

theorem checkWarnings_no5 (s : ContextTracker) (h : s.pct5 = true) :
    (checkWarnings s).1 ≠ some .pct5w := by
  unfold checkWarnings
  split
  · rename_i hc
    simp [h] at hc
  · split <;> simp

theorem runOps_pct10_zero (ops : List COp) :
    ∀ s : ContextTracker, s.pct10 = true →
      ((runOps s ops).2.count (some .pct10w) = 0 ∧ (runOps s ops).1.pct10 = true) := by
  induction ops with
  | nil => intro s h; exact ⟨rfl, h⟩
  | cons op rest ih =>
    intro s h
    match op with
    | .add n => exact ih (addTokens s n) h
    | .set n => exact ih (setTokens s n) h
    | .check =>
      have h2 := checkWarnings_pct10_mono s h
      have hne := checkWarnings_no10 s h
      have := ih (checkWarnings s).2 h2
      simp only [runOps]
      refine ⟨?_, this.2⟩
      rw [List.count_cons]
      simp only [this.1]
      simp [hne]

theorem runOps_pct5_zero (ops : List COp) :
    ∀ s : ContextTracker, s.pct5 = true →
      ((runOps s ops).2.count (some .pct5w) = 0 ∧ (runOps s ops).1.pct5 = true) := by
  induction ops with
  | nil => intro s h; exact ⟨rfl, h⟩
  | cons op rest ih =>
    intro s h
    match op with
    | .add n => exact ih (addTokens s n) h
    | .set n => exact ih (setTokens s n) h
    | .check =>
      have h2 := checkWarnings_pct5_mono s h
      have hne := checkWarnings_no5 s h
      have := ih (checkWarnings s).2 h2
      simp only [runOps]
      refine ⟨?_, this.2⟩
      rw [List.count_cons]
      simp only [this.1]
      simp [hne]

theorem runOps_pct10_le_one (ops : List COp) :
    ∀ s : ContextTracker, (runOps s ops).2.count (some .pct10w) ≤ 1 := by
  induction ops with
  | nil => intro s; simp [runOps]
  | cons op rest ih =>
    intro s
    match op with
    | .add n => exact ih (addTokens s n)
    | .set n => exact ih (setTokens s n)
    | .check =>
      simp only [runOps]
      rw [List.count_cons]
      by_cases hfire : (checkWarnings s).1 = some .pct10w
      · have hflag : (checkWarnings s).2.pct10 = true := by
          unfold checkWarnings at hfire ⊢
          split at hfire
          · simp at hfire
          · split at hfire
            · rename_i h1 h2
              rw [if_neg h1, if_pos h2]
            · simp at hfire
        have := (runOps_pct10_zero rest (checkWarnings s).2 hflag).1
        simp [this, hfire]
      · have := ih (checkWarnings s).2
        simp [hfire]
        omega

theorem runOps_pct5_le_one (ops : List COp) :
    ∀ s : ContextTracker, (runOps s ops).2.count (some .pct5w) ≤ 1 := by
  induction ops with
  | nil => intro s; simp [runOps]
  | cons op rest ih =>
    intro s
    match op with
    | .add n => exact ih (addTokens s n)
    | .set n => exact ih (setTokens s n)
    | .check =>
      simp only [runOps]
      rw [List.count_cons]
      by_cases hfire : (checkWarnings s).1 = some .pct5w
      · have hflag : (checkWarnings s).2.pct5 = true := by
          unfold checkWarnings at hfire ⊢
          split at hfire
          · rename_i h1
            rw [if_pos h1]
          · split at hfire <;> simp at hfire
        have := (runOps_pct5_zero rest (checkWarnings s).2 hflag).1
        simp [this, hfire]
      · have := ih (checkWarnings s).2
        simp [hfire]
        omega

theorem usedPct_mono {s t : ContextTracker} (h : s.tokens ≤ t.tokens) :
    usedPct s ≤ usedPct t := by
  unfold usedPct
  have : (s.tokens + 1000) / 2000 ≤ (t.tokens + 1000) / 2000 :=
    Nat.div_le_div_right (by omega)
  omega

theorem runOps_noSet_usedPct_mono (ops : List COp) :
    ∀ s : ContextTracker, noSet ops = true →
      usedPct s ≤ usedPct (runOps s ops).1 := by
  induction ops with
  | nil => intro s _; exact le_refl _
  | cons op rest ih =>
    intro s h
    match op with
    | .add n =>
      have h1 : usedPct s ≤ usedPct (addTokens s n) :=
        usedPct_mono (by simp [addTokens])
      exact le_trans h1 (ih (addTokens s n) h)
    | .set n => simp [noSet] at h
    | .check =>
      have h1 : usedPct s ≤ usedPct (checkWarnings s).2 :=
        usedPct_mono (by rw [checkWarnings_tokens])
      simp only [runOps]
      exact le_trans h1 (ih (checkWarnings s).2 h)

/-! ### Queue lemmas -/

theorem stepQ_inv (s : QState) (e : QEvent)
    (h1 : s.started ++ s.queue = s.arrivals)
    (h2 : s.processing = false → s.queue = []) :
    (stepQ s e).started ++ (stepQ s e).queue = (stepQ s e).arrivals ∧
    ((stepQ s e).processing = false → (stepQ s e).queue = []) := by
  cases e with
  | arrive i =>
    by_cases hp : s.processing
    · simp only [stepQ, if_pos hp]
      refine ⟨?_, ?_⟩
      · rw [← List.append_assoc, h1]
      · intro hc; simp [hp] at hc
    · have hq := h2 (by simpa using hp)
      simp only [stepQ, if_neg hp]
      refine ⟨?_, ?_⟩
      · rw [hq] at h1 ⊢
        simp at h1
        simp [h1]
      · intro hc; simp at hc
  | complete ok =>
    by_cases hp : s.processing
    · simp only [stepQ, if_pos hp]
      match hq : s.queue with
      | [] =>
        rw [hq] at h1
        simp at h1
        exact ⟨by simp [h1], fun _ => rfl⟩
      | h :: t =>
        rw [hq] at h1
        refine ⟨?_, ?_⟩
        · simp only [List.append_assoc, List.singleton_append]
          exact h1
        · intro hc; simp [hp] at hc
    · simp only [stepQ, if_neg hp]
      exact ⟨h1, h2⟩

theorem foldQ_inv (events : List QEvent) :
    ∀ s : QState,
      (s.started ++ s.queue = s.arrivals) →
      (s.processing = false → s.queue = []) →
      ((events.foldl stepQ s).started ++ (events.foldl stepQ s).queue =
        (events.foldl stepQ s).arrivals) ∧
      ((events.foldl stepQ s).processing = false → (events.foldl stepQ s).queue = []) := by
  induction events with
  | nil => intro s h1 h2; exact ⟨h1, h2⟩
  | cons e rest ih =>
    intro s h1 h2
    have := stepQ_inv s e h1 h2
    exact ih (stepQ s e) this.1 this.2

/-! ### Approval lemmas -/

theorem stepA_AInv (s : AState) (e : AEvent) (h : AInv s) : AInv (stepA s e) := by
  cases e with
  | fire =>
    rcases h with ⟨hr, ha, hp⟩ | ⟨hr, ha, hp⟩
    · right; simp [stepA, ha, hr]
    · right; simp [stepA, ha, hr, hp]
  | press d =>
    rcases h with ⟨hr, ha, hp⟩ | ⟨hr, ha, hp⟩
    · right; simp [stepA, hp, hr]
    · right; simp [stepA, hp, hr, ha]

theorem runA_AInv (events : List AEvent) : AInv (runA events) := by
  have gen : ∀ (l : List AEvent) (s : AState), AInv s → AInv (l.foldl stepA s) := by
    intro l
    induction l with
    | nil => intro s h; exact h
    | cons e rest ih => intro s h; exact ih (stepA s e) (stepA_AInv s e h)
  exact gen events AState.init (Or.inl ⟨rfl, rfl, rfl⟩)

theorem foldA_resolved_keeps (l : List AEvent) :
    ∀ s : AState, s.armed = false → s.pending = false →
      (l.foldl stepA s).resolved = s.resolved ∧
      (l.foldl stepA s).armed = false ∧ (l.foldl stepA s).pending = false := by
  induction l with
  | nil => intro s h1 h2; exact ⟨rfl, h1, h2⟩
  | cons e rest ih =>
    intro s h1 h2
    cases e with
    | fire => simpa [stepA, h1] using ih s h1 h2
    | press d => simpa [stepA, h2] using ih { s with expired := s.expired + 1 } h1 h2

/-! ### String and cut-point lemmas -/

theorem listStartsWith_length : ∀ s pat : List Char,
    listStartsWith s pat = true → pat.length ≤ s.length := by
  intro s
  induction s with
  | nil =>
    intro pat h
    cases pat with
    | nil => simp
    | cons b bs => simp [listStartsWith] at h
  | cons a as ih =>
    intro pat h
    cases pat with
    | nil => simp
    | cons b bs =>
      simp only [listStartsWith, Bool.and_eq_true] at h
      have := ih bs h.2
      simp only [List.length_cons]
      omega

theorem lastIdxAux_spec (pat : List Char) : ∀ (s : List Char) (i j : ℕ),
    lastIdxAux pat s i = some j →
      i ≤ j ∧ (j - i) + pat.length ≤ s.length ∧
      listStartsWith (s.drop (j - i)) pat = true := by
  intro s
  induction s with
  | nil =>
    intro i j h
    simp only [lastIdxAux] at h
    split at h
    · rename_i hsw
      simp only [Option.some.injEq] at h
      subst h
      have hlen := listStartsWith_length [] pat hsw
      simp only [List.length_nil, Nat.le_zero] at hlen
      refine ⟨le_refl _, ?_, ?_⟩
      · simp [hlen]
      · simpa using hsw
    · exact Option.noConfusion h
  | cons c rest ih =>
    intro i j h
    simp only [lastIdxAux] at h
    cases hrec : lastIdxAux pat rest (i + 1) with
    | some j2 =>
      simp only [hrec, Option.some.injEq] at h
      subst h
      obtain ⟨h1, h2, h3⟩ := ih (i + 1) j2 hrec
      refine ⟨by omega, ?_, ?_⟩
      · simp only [List.length_cons]
        omega
      · have heq : j2 - i = (j2 - (i + 1)) + 1 := by omega
        rw [heq, List.drop_succ_cons]
        exact h3
    | none =>
      simp only [hrec] at h
      split at h
      · rename_i hsw
        simp only [Option.some.injEq] at h
        subst h
        have hlen := listStartsWith_length _ pat hsw
        refine ⟨le_refl _, ?_, ?_⟩
        · simpa using hlen
        · simpa [Nat.sub_self] using hsw
      · exact Option.noConfusion h

theorem jsLastIndexOf_cases (u pat : List Char) :
    jsLastIndexOf u pat = -1 ∨
    ∃ j : ℕ, jsLastIndexOf u pat = (j : Int) ∧ j + pat.length ≤ u.length ∧
      listStartsWith (u.drop j) pat = true := by
  unfold jsLastIndexOf
  cases hrec : lastIdxAux pat u 0 with
  | none => exact Or.inl rfl
  | some j =>
    obtain ⟨_, h2, h3⟩ := lastIdxAux_spec pat u 0 j hrec
    exact Or.inr ⟨j, rfl, by simpa using h2, by simpa using h3⟩

theorem startsWith_single_eq (u : List Char) (a : Char) : ∀ i : ℕ,
    listStartsWith (u.drop i) [a] = (u[i]? == some a) := by
  induction u with
  | nil =>
    intro i
    simp [listStartsWith]
  | cons c rest ih =>
    intro i
    cases i with
    | zero =>
      simp only [List.drop_zero, listStartsWith, List.getElem?_cons_zero]
      simp
    | succ j =>
      simp only [List.drop_succ_cons, List.getElem?_cons_succ]
      exact ih j

theorem startsWith_pair_eq (u : List Char) (a b : Char) : ∀ i : ℕ,
    listStartsWith (u.drop i) [a, b] = (u[i]? == some a && u[i + 1]? == some b) := by
  induction u with
  | nil =>
    intro i
    simp [listStartsWith]
  | cons c rest ih =>
    intro i
    cases i with
    | zero =>
      simp only [List.drop_zero, listStartsWith, List.getElem?_cons_zero,
        List.getElem?_cons_succ]
      rw [show listStartsWith rest [b] = listStartsWith (rest.drop 0) [b] by rw [List.drop_zero],
        startsWith_single_eq rest b 0]
      simp
    | succ j =>
      simp only [List.drop_succ_cons, List.getElem?_cons_succ]
      exact ih j

theorem computeFlushEnd_le (u : List Char) (hp : Bool) :
    computeFlushEnd u hp ≤ u.length := by
  unfold computeFlushEnd
  cases hp with
  | true =>
    simp only [if_true]
    rcases jsLastIndexOf_cases u paraPat with hc | ⟨j, hj, hlen, _⟩
    · rw [hc]
      norm_num
    · rw [hj]
      split
      · rename_i hpos
        simp only [Int.toNat_ofNat]
        simp only [paraPat, List.length_cons, List.length_nil] at hlen
        omega
      · exact le_refl _
  | false =>
    simp only [Bool.false_eq_true, if_false]
    split
    · rename_i hcond
      rcases max_choice (max (jsLastIndexOf u ['.', ' ']) (jsLastIndexOf u ['.', '\n']))
          (max (jsLastIndexOf u ['?', ' ']) (jsLastIndexOf u ['!', ' '])) with h1 | h1 <;>
        rw [h1] at hcond ⊢
      · rcases max_choice (jsLastIndexOf u ['.', ' ']) (jsLastIndexOf u ['.', '\n']) with
          h2 | h2 <;> rw [h2] at hcond ⊢
        · rcases jsLastIndexOf_cases u ['.', ' '] with hc | ⟨j, hj, hlen, _⟩
          · rw [hc] at hcond; omega
          · rw [hj]
            simp only [List.length_cons, List.length_nil] at hlen
            rw [show ((j : Int) + 1) = ((j + 1 : ℕ) : Int) by push_cast; ring,
              Int.toNat_ofNat]
            omega
        · rcases jsLastIndexOf_cases u ['.', '\n'] with hc | ⟨j, hj, hlen, _⟩
          · rw [hc] at hcond; omega
          · rw [hj]
            simp only [List.length_cons, List.length_nil] at hlen
            rw [show ((j : Int) + 1) = ((j + 1 : ℕ) : Int) by push_cast; ring,
              Int.toNat_ofNat]
            omega
      · rcases max_choice (jsLastIndexOf u ['?', ' ']) (jsLastIndexOf u ['!', ' ']) with
          h2 | h2 <;> rw [h2] at hcond ⊢
        · rcases jsLastIndexOf_cases u ['?', ' '] with hc | ⟨j, hj, hlen, _⟩
          · rw [hc] at hcond; omega
          · rw [hj]
            simp only [List.length_cons, List.length_nil] at hlen
            rw [show ((j : Int) + 1) = ((j + 1 : ℕ) : Int) by push_cast; ring,
              Int.toNat_ofNat]
            omega
        · rcases jsLastIndexOf_cases u ['!', ' '] with hc | ⟨j, hj, hlen, _⟩
          · rw [hc] at hcond; omega
          · rw [hj]
            simp only [List.length_cons, List.length_nil] at hlen
            rw [show ((j : Int) + 1) = ((j + 1 : ℕ) : Int) by push_cast; ring,
              Int.toNat_ofNat]
            omega
    · split
      · rename_i hcond
        rcases jsLastIndexOf_cases u [' '] with hc | ⟨j, hj, hlen, _⟩
        · rw [hc] at hcond; omega
        · rw [hj]
          simp only [List.length_cons, List.length_nil] at hlen
          rw [Int.toNat_ofNat]
          omega
      · exact le_refl _

theorem jsLastIndexOf_pair_char (u : List Char) (a b : Char) (j : ℕ)
    (h : jsLastIndexOf u [a, b] = (j : Int)) :
    u[j]? = some a ∧ u[j + 1]? = some b := by
  rcases jsLastIndexOf_cases u [a, b] with hc | ⟨j2, hj2, _, hsw⟩
  · rw [h] at hc
    omega
  · rw [h] at hj2
    have hjj : j2 = j := by exact_mod_cast hj2.symm
    subst hjj
    rw [startsWith_pair_eq] at hsw
    simp only [Bool.and_eq_true, beq_iff_eq] at hsw
    exact hsw

theorem jsLastIndexOf_single_char (u : List Char) (a : Char) (j : ℕ)
    (h : jsLastIndexOf u [a] = (j : Int)) : u[j]? = some a := by
  rcases jsLastIndexOf_cases u [a] with hc | ⟨j2, hj2, _, hsw⟩
  · rw [h] at hc
    omega
  · rw [h] at hj2
    have hjj : j2 = j := by exact_mod_cast hj2.symm
    subst hjj
    rw [startsWith_single_eq] at hsw
    simpa using hsw

theorem pair_cut_boundary (u : List Char) (a b : Char) (j : ℕ)
    (hj : jsLastIndexOf u [a, b] = (j : Int))
    (hb : b = ' ' ∨ b = '\n') :
    claimBoundary u (j + 1) = true := by
  have hchar := (jsLastIndexOf_pair_char u a b j hj).2
  rcases hb with hb | hb <;> subst hb <;> simp [claimBoundary, hchar]

theorem space_cut_boundary (u : List Char) (j : ℕ)
    (hj : jsLastIndexOf u [' '] = (j : Int)) :
    claimBoundary u j = true := by
  have hchar := jsLastIndexOf_single_char u ' ' j hj
  simp [claimBoundary, hchar]

theorem specGreatest_congr (p q : ℕ → Bool) (h : ∀ k, p k = q k) :
    ∀ n, specGreatest p n = specGreatest q n := by
  intro n
  induction n with
  | zero => simp only [specGreatest, h 0]
  | succ n ih => simp only [specGreatest, h (n + 1), ih]

theorem specGreatest_shift (p : ℕ → Bool) : ∀ n : ℕ,
    specGreatest p (n + 1) =
      (specGreatest (fun k => p (k + 1)) n).elim
        (if p 0 then some 0 else none) (fun m => some (m + 1)) := by
  intro n
  induction n with
  | zero =>
    cases h1 : p 1 <;> simp [specGreatest, h1]
  | succ n ih =>
    conv_lhs => rw [specGreatest]
    conv_rhs => rw [specGreatest]
    cases h2 : p (n + 1 + 1) with
    | true => simp [h2]
    | false =>
      simp only [h2, Bool.false_eq_true, if_false]
      exact ih

theorem lastIdxAux_eq_specGreatest (pat : List Char) : ∀ (s : List Char) (i : ℕ),
    lastIdxAux pat s i =
      (specGreatest (fun k => listStartsWith (s.drop k) pat) s.length).map (· + i) := by
  intro s
  induction s with
  | nil =>
    intro i
    cases hsw : listStartsWith [] pat <;>
      simp [lastIdxAux, specGreatest, hsw]
  | cons c rest ih =>
    intro i
    simp only [lastIdxAux, List.length_cons]
    rw [specGreatest_shift,
      specGreatest_congr (fun k => listStartsWith ((c :: rest).drop (k + 1)) pat)
        (fun k => listStartsWith (rest.drop k) pat)
        (fun k => by
          show listStartsWith ((c :: rest).drop (k + 1)) pat =
            listStartsWith (rest.drop k) pat
          rw [List.drop_succ_cons]) rest.length,
      ih (i + 1)]
    cases hg : specGreatest (fun k => listStartsWith (rest.drop k) pat) rest.length with
    | some m =>
      simp [hg]
      omega
    | none =>
      cases hsw : listStartsWith (c :: rest) pat <;>
        simp [hg, hsw, Option.elim]

theorem jsLastIndexOf_eq_optIdx_spec (u pat : List Char) :
    jsLastIndexOf u pat =
      optIdx (specGreatest (fun k => listStartsWith (u.drop k) pat) u.length) := by
  unfold jsLastIndexOf
  rw [lastIdxAux_eq_specGreatest]
  cases specGreatest (fun k => listStartsWith (u.drop k) pat) u.length <;>
    simp [optIdx]

theorem optIdx_specGreatest_le (p : ℕ → Bool) : ∀ n,
    optIdx (specGreatest p n) ≤ (n : Int) := by
  intro n
  induction n with
  | zero => cases h : p 0 <;> simp [specGreatest, h, optIdx]
  | succ n ih =>
    cases h : p (n + 1) <;>
      simp only [specGreatest, h, if_true, if_false, Bool.false_eq_true]
    · calc optIdx (specGreatest p n) ≤ (n : Int) := ih
        _ ≤ ((n + 1 : ℕ) : Int) := by push_cast; omega
    · simp [optIdx]

theorem optIdx_specGreatest_max (p q : ℕ → Bool) : ∀ n,
    max (optIdx (specGreatest p n)) (optIdx (specGreatest q n)) =
      optIdx (specGreatest (fun k => p k || q k) n) := by
  intro n
  induction n with
  | zero =>
    cases hp : p 0 <;> cases hq : q 0 <;> simp [specGreatest, hp, hq, optIdx]
  | succ n ih =>
    have hlep := optIdx_specGreatest_le p n
    have hleq := optIdx_specGreatest_le q n
    cases hp : p (n + 1) <;> cases hq : q (n + 1) <;>
      simp only [specGreatest, hp, hq, Bool.or_self, Bool.or_true, Bool.true_or,
        Bool.false_or, Bool.or_false, if_true, if_false, Bool.false_eq_true]
    · exact ih
    · rw [show optIdx (some (n + 1)) = ((n + 1 : ℕ) : Int) from rfl]
      omega
    · rw [show optIdx (some (n + 1)) = ((n + 1 : ℕ) : Int) from rfl]
      omega
    · simp

theorem jsLastIndexOf_para_eq (u : List Char) :
    jsLastIndexOf u paraPat = optIdx (specGreatest (paraBreakAt u) u.length) := by
  rw [jsLastIndexOf_eq_optIdx_spec]
  congr 1
  refine specGreatest_congr _ _ (fun k => ?_) u.length
  rw [show paraPat = ['\n', '\n'] from rfl, startsWith_pair_eq]
  rfl

theorem jsLastIndexOf_space_eq (u : List Char) :
    jsLastIndexOf u [' '] = optIdx (specGreatest (spaceAt u) u.length) := by
  rw [jsLastIndexOf_eq_optIdx_spec]
  congr 1
  refine specGreatest_congr _ _ (fun k => ?_) u.length
  rw [startsWith_single_eq]
  rfl

theorem sentenceMax_eq (u : List Char) :
    max (max (jsLastIndexOf u ['.', ' ']) (jsLastIndexOf u ['.', '\n']))
        (max (jsLastIndexOf u ['?', ' ']) (jsLastIndexOf u ['!', ' '])) =
      optIdx (specGreatest (sentenceEndAt u) u.length) := by
  rw [jsLastIndexOf_eq_optIdx_spec u ['.', ' '], jsLastIndexOf_eq_optIdx_spec u ['.', '\n'],
    jsLastIndexOf_eq_optIdx_spec u ['?', ' '], jsLastIndexOf_eq_optIdx_spec u ['!', ' '],
    optIdx_specGreatest_max, optIdx_specGreatest_max, optIdx_specGreatest_max]
  congr 1
  refine specGreatest_congr _ _ (fun k => ?_) u.length
  simp only [startsWith_pair_eq]
  rfl

theorem space_branch_eq (u : List Char) :
    (if 3 * (u.length : Int) < 10 * jsLastIndexOf u [' ']
     then (jsLastIndexOf u [' ']).toNat else u.length) = specCutSpace u := by
  unfold specCutSpace
  rw [jsLastIndexOf_space_eq]
  cases hg : specGreatest (spaceAt u) u.length with
  | none =>
    rw [if_neg (by simp only [optIdx]; omega)]
  | some i =>
    simp only [optIdx]
    by_cases hc : 3 * u.length < 10 * i
    · rw [if_pos (by exact_mod_cast hc), if_pos hc, Int.toNat_ofNat]
    · rw [if_neg (by exact_mod_cast hc), if_neg hc]

/-! ### Flush-loop invariant lemmas -/

theorem getLast?_append_one {α : Type} (l : List α) (r : α) :
    (l ++ [r]).getLast? = some r := by
  rw [List.getLast?_append_of_ne_nil l (by simp : ([r] : List α) ≠ [])]
  rfl

theorem mem_of_getLast?_eq {α : Type} {l : List α} {x : α}
    (h : l.getLast? = some x) : x ∈ l := by
  have hx : x ∈ l.getLast? := Option.mem_def.mpr h
  obtain ⟨hne, rfl⟩ := List.mem_getLast?_eq_getLast hx
  exact List.getLast_mem hne

theorem FInv_init (t0 : ℕ) : FInv (initFlush t0) :=
  ⟨le_refl _, by simp [initFlush], List.chain'_nil, by simp [initFlush]⟩

theorem FInv_archiveStep (s : FlushState) (t : List Char) (h : FInv s) :
    FInv (archiveStep s t) := by
  obtain ⟨h1, h2, h3, h4⟩ := h
  unfold archiveStep
  by_cases hn : tgIsNewTurn t s.currentTurnText = true
  · rw [if_pos hn]
    refine ⟨by simp, ?_, h3, ?_⟩
    · intro r hr
      have hb := h2 r hr
      refine ⟨?_, hb.2⟩
      show r.1 ≤ (s.allResponses ++ [s.currentTurnText]).length
      rw [List.length_append]
      simp only [List.length_cons, List.length_nil]
      omega
    · intro r hr hc
      exfalso
      have hb := (h2 r (mem_of_getLast?_eq hr)).1
      rw [List.length_append] at hc
      simp only [List.length_cons, List.length_nil] at hc
      omega
  · rw [if_neg hn]
    refine ⟨?_, h2, h3, h4⟩
    show s.currentTurnSent ≤ t.length
    cases hcur : s.currentTurnText with
    | nil =>
      rw [hcur] at h1
      simp only [List.length_nil, Nat.le_zero] at h1
      omega
    | cons c l =>
      have hlen : ¬ t.length < s.currentTurnText.length := by
        intro hlt
        apply hn
        simp only [tgIsNewTurn, Bool.and_eq_true, decide_eq_true_eq, Bool.not_eq_true']
        exact ⟨hlt, by rw [hcur]; rfl⟩
      omega

theorem flushStep_shape (s : FlushState) (now : ℕ) :
    flushStep s now = s ∨
    ∃ fe : ℕ, fe ≤ (s.currentTurnText.drop s.currentTurnSent).length ∧
      ∃ chunk : List Char,
      flushStep s now =
        { s with sentChunks := s.sentChunks ++ [chunk],
                 log := s.log ++ [(s.allResponses.length, s.currentTurnSent,
                   s.currentTurnSent + fe)],
                 currentTurnSent := s.currentTurnSent + fe,
                 lastFlush := now } := by
  simp only [flushStep]
  split
  · split
    · exact Or.inl rfl
    · exact Or.inr ⟨_, computeFlushEnd_le _ _, _, rfl⟩
  · exact Or.inl rfl

theorem FInv_flushStep (s : FlushState) (now : ℕ) (h : FInv s) :
    FInv (flushStep s now) := by
  rcases flushStep_shape s now with heq | ⟨fe, hfe, chunk, heq⟩
  · rw [heq]; exact h
  · obtain ⟨h1, h2, h3, h4⟩ := h
    rw [List.length_drop] at hfe
    rw [heq]
    refine ⟨?_, ?_, ?_, ?_⟩
    · show s.currentTurnSent + fe ≤ s.currentTurnText.length
      omega
    · intro r hr
      rcases List.mem_append.mp hr with hro | hrn
      · exact h2 r hro
      · simp only [List.mem_cons, List.not_mem_nil, or_false] at hrn
        subst hrn
        refine ⟨le_refl _, ?_⟩
        show s.currentTurnSent ≤ s.currentTurnSent + fe
        omega
    · show List.Chain' logOrd (s.log ++
        [(s.allResponses.length, s.currentTurnSent, s.currentTurnSent + fe)])
      refine List.Chain'.append h3 (List.chain'_singleton _) ?_
      intro x hx y hy
      simp only [List.head?_cons, Option.mem_def, Option.some.injEq] at hy
      subst hy
      have hx' : s.log.getLast? = some x := Option.mem_def.mp hx
      have hb := (h2 x (mem_of_getLast?_eq hx')).1
      by_cases hcase : x.1 = s.allResponses.length
      · exact Or.inr ⟨hcase, (h4 x hx' hcase).symm⟩
      · exact Or.inl (by omega)
    · intro r hr hc
      rw [getLast?_append_one] at hr
      simp only [Option.some.injEq] at hr
      subst hr
      rfl

theorem FInv_result (s : FlushState) (h : FInv s) : FInv (stepT s .result) := by
  obtain ⟨h1, h2, h3, h4⟩ := h
  simp only [stepT]
  by_cases hcur : s.currentTurnText.isEmpty
  · have hc : s.currentTurnText = [] := by simpa [List.isEmpty_iff] using hcur
    rw [if_pos hcur]
    have hrem : jsTrim (s.currentTurnText.drop s.currentTurnSent) = [] := by
      rw [hc, List.drop_nil]
      rfl
    rw [if_pos (by rw [hrem]; rfl)]
    exact ⟨h1, h2, h3, h4⟩
  · rw [if_neg hcur]
    by_cases hrem : (jsTrim (s.currentTurnText.drop s.currentTurnSent)).isEmpty
    · rw [if_pos hrem]
      refine ⟨h1, ?_, h3, ?_⟩
      · intro r hr
        have hb := h2 r hr
        refine ⟨?_, hb.2⟩
        show r.1 ≤ (s.allResponses ++ [s.currentTurnText]).length
        rw [List.length_append]
        simp only [List.length_cons, List.length_nil]
        omega
      · intro r hr hc
        exfalso
        have hb := (h2 r (mem_of_getLast?_eq hr)).1
        rw [List.length_append] at hc
        simp only [List.length_cons, List.length_nil] at hc
        omega
    · rw [if_neg hrem]
      refine ⟨h1, ?_, ?_, ?_⟩
      · intro r hr
        show r.1 ≤ (s.allResponses ++ [s.currentTurnText]).length ∧ r.2.1 ≤ r.2.2
        rw [List.length_append]
        simp only [List.length_cons, List.length_nil]
        rcases List.mem_append.mp hr with hro | hrn
        · have hb := h2 r hro
          exact ⟨by omega, hb.2⟩
        · simp only [List.mem_cons, List.not_mem_nil, or_false] at hrn
          subst hrn
          exact ⟨by omega, h1⟩
      · show List.Chain' logOrd (s.log ++
          [(s.allResponses.length, s.currentTurnSent, s.currentTurnText.length)])
        refine List.Chain'.append h3 (List.chain'_singleton _) ?_
        intro x hx y hy
        simp only [List.head?_cons, Option.mem_def, Option.some.injEq] at hy
        subst hy
        have hx' : s.log.getLast? = some x := Option.mem_def.mp hx
        have hb := (h2 x (mem_of_getLast?_eq hx')).1
        by_cases hcase : x.1 = s.allResponses.length
        · exact Or.inr ⟨hcase, (h4 x hx' hcase).symm⟩
        · exact Or.inl (by omega)
      · intro r hr hc
        exfalso
        rw [getLast?_append_one] at hr
        simp only [Option.some.injEq] at hr
        subst hr
        rw [List.length_append] at hc
        simp only [List.length_cons, List.length_nil] at hc
        omega

theorem stepT_FInv (s : FlushState) (e : TEvent) (h : FInv s) : FInv (stepT s e) := by
  cases e with
  | other => exact h
  | result => exact FInv_result s h
  | text t now =>
    simp only [stepT]
    split
    · exact h
    · exact FInv_flushStep _ _ (FInv_archiveStep s t h)

theorem runT_FInv (t0 : ℕ) (events : List TEvent) :
    FInv (runT (initFlush t0) events) := by
  have gen : ∀ (l : List TEvent) (s : FlushState), FInv s → FInv (l.foldl stepT s) := by
    intro l
    induction l with
    | nil => exact fun s h => h
    | cons e rest ih => exact fun s h => ih (stepT s e) (stepT_FInv s e h)
  exact gen events _ (FInv_init t0)

theorem flushStep_sent_mono (s : FlushState) (now : ℕ) :
    s.currentTurnSent ≤ (flushStep s now).currentTurnSent := by
  rcases flushStep_shape s now with heq | ⟨fe, _, chunk, heq⟩
  · rw [heq]
  · rw [heq]
    show s.currentTurnSent ≤ s.currentTurnSent + fe
    omega

/-- C4: between two resets, for every sequence of addTokens/setTokens/
checkWarnings calls starting from the reset state, the ≤10%-remaining warning
is returned at most once and the ≤5%-remaining warning at most once; in the
Scenario E sequence (cross into ≤10%, later into ≤5%) exactly two warnings
fire — the outputs are [pct10 warning, null, pct5 warning, null]. -/
theorem C4_warnings_at_most_once :
    (∀ ops : List COp,
      (runOps ContextTracker.init ops).2.count (some .pct10w) ≤ 1 ∧
      (runOps ContextTracker.init ops).2.count (some .pct5w) ≤ 1) ∧
    (runOps ContextTracker.init scenarioE).2 =
      [some .pct10w, none, some .pct5w, none] := by
  refine ⟨fun ops => ⟨runOps_pct10_le_one ops _, runOps_pct5_le_one ops _⟩, ?_⟩
  decide

/-- C5 counterexample: the claim says usedPct() is non-decreasing between
resets even across setTokens calls.  False: from the reset state (tokens =
18000, usedPct = 9), `setTokens(1000)` drops usedPct to 1. -/
theorem C5_counterexample :
    usedPct (setTokens ContextTracker.init 1000) < usedPct ContextTracker.init := by
  decide

/-- C5 (amended): usedPct() is non-decreasing between resets for every
sequence of addTokens/checkWarnings calls (no setTokens); a setTokens(n) call
preserves monotonicity when n is at least the current token count, but may
decrease usedPct when n is below it (see the counterexample). -/
theorem C5_usedPct_mono :
    (∀ (ops : List COp) (s : ContextTracker), noSet ops = true →
      usedPct s ≤ usedPct (runOps s ops).1) ∧
    (∀ (s : ContextTracker) (n : ℕ), s.tokens ≤ n →
      usedPct s ≤ usedPct (setTokens s n)) :=
  ⟨fun ops s h => runOps_noSet_usedPct_mono ops s h,
   fun _ _ h => usedPct_mono h⟩

theorem C5_usedPct_mono_witness :
    usedPct ContextTracker.init ≤
      usedPct (runOps ContextTracker.init [.add 1000, .check]).1 ∧
    usedPct ContextTracker.init ≤ usedPct (setTokens ContextTracker.init 20000) :=
  ⟨C5_usedPct_mono.1 [.add 1000, .check] ContextTracker.init (by decide),
   C5_usedPct_mono.2 ContextTracker.init 20000 (by decide)⟩

/-- C10: when remaining drops to ≤5% with neither flag set, the first
checkWarnings call returns only the 5%-threshold warning and sets only the
pct5 flag; a later call with remaining still ≤10% returns the 10%-threshold
warning — when both thresholds are crossed at once the two warnings fire on
separate calls, 5% warning first. -/
theorem C10_five_percent_first :
    ∀ t : ℕ, remainingPct ⟨t, false, false⟩ ≤ 5 →
      (checkWarnings ⟨t, false, false⟩ = (some .pct5w, ⟨t, false, true⟩)) ∧
      (∀ u : ℕ, remainingPct ⟨u, false, true⟩ ≤ 10 →
        checkWarnings ⟨u, false, true⟩ = (some .pct10w, ⟨u, true, true⟩)) := by
  intro t h
  constructor
  · unfold checkWarnings
    rw [if_pos ⟨h, rfl⟩]
  · intro u h2
    unfold checkWarnings
    rw [if_neg (by simp), if_pos ⟨h2, rfl⟩]

theorem C10_five_percent_first_witness :
    checkWarnings ⟨192000, false, false⟩ = (some .pct5w, ⟨192000, false, true⟩) ∧
    checkWarnings ⟨192000, false, true⟩ = (some .pct10w, ⟨192000, true, true⟩) :=
  ⟨(C10_five_percent_first 192000 (by decide)).1,
   (C10_five_percent_first 192000 (by decide)).2 192000 (by decide)⟩

/-- C3: enqueue runs the handler immediately when idle, otherwise appends to
the FIFO list and notifies the caller; on completion — normal return or throw
alike — the next queued entry is unconditionally dequeued and started; over
every event sequence the started handlers are a prefix of the arrivals in
arrival order (none reordered, none dropped while queued work is drained);
and in Scenario A (three arrivals while one is active, then completions) all
four execute in arrival order. -/
theorem C3_queue_fifo :
    (∀ (s : QState) (i : ℕ), s.processing = false →
      stepQ s (.arrive i) =
        { s with processing := true, started := s.started ++ [i],
                 arrivals := s.arrivals ++ [i] }) ∧
    (∀ (s : QState) (i : ℕ), s.processing = true →
      stepQ s (.arrive i) =
        { s with queue := s.queue ++ [i], notified := s.notified ++ [i],
                 arrivals := s.arrivals ++ [i] }) ∧
    (∀ (s : QState) (a b : Bool), stepQ s (.complete a) = stepQ s (.complete b)) ∧
    (∀ (s : QState) (ok : Bool) (h : ℕ) (t : List ℕ),
      s.processing = true → s.queue = h :: t →
      stepQ s (.complete ok) = { s with queue := t, started := s.started ++ [h] }) ∧
    (∀ events : List QEvent,
      (runQ events).started ++ (runQ events).queue = (runQ events).arrivals) ∧
    ((runQ scenarioA).started = [0, 1, 2, 3] ∧ (runQ scenarioA).notified = [1, 2, 3] ∧
     (runQ scenarioA).queue = [] ∧ (runQ scenarioA).processing = false) := by
  refine ⟨?_, ?_, ?_, ?_, ?_, by decide⟩
  · intro s i h
    simp [stepQ, h]
  · intro s i h
    simp [stepQ, h]
  · intro s a b
    rfl
  · intro s ok h t hp hq
    simp [stepQ, hp, hq]
  · intro events
    exact (foldQ_inv events QState.init rfl (fun _ => rfl)).1

theorem C3_queue_fifo_witness :
    stepQ ⟨false, [], [5], [], [5]⟩ (.arrive 9) = ⟨true, [], [5, 9], [], [5, 9]⟩ ∧
    stepQ ⟨true, [7], [5], [7], [5, 7]⟩ (.arrive 9) = ⟨true, [7, 9], [5], [7, 9], [5, 7, 9]⟩ ∧
    stepQ ⟨true, [7], [5], [7], [5, 7]⟩ (.complete false) = ⟨true, [], [5, 7], [7], [5, 7]⟩ ∧
    (runQ scenarioA).started = [0, 1, 2, 3] :=
  ⟨by simpa using C3_queue_fifo.1 ⟨false, [], [5], [], [5]⟩ 9 rfl,
   by simpa using C3_queue_fifo.2.1 ⟨true, [7], [5], [7], [5, 7]⟩ 9 rfl,
   by simpa using C3_queue_fifo.2.2.2.1 ⟨true, [7], [5], [7], [5, 7]⟩ false 7 [] rfl rfl,
   C3_queue_fifo.2.2.2.2.2.1⟩

/-- C2 counterexample: the claim extends the timeout-as-rejection invariant
to the terminal Y/N channel, but `requestTerminalApproval` installs no timer:
when no answer ever arrives (in particular within the 600000 ms window) the
promise never resolves, instead of auto-resolving to rejected. -/
theorem C2_counterexample :
    terminalResolve none = none ∧ terminalResolve none ≠ some false := by
  exact ⟨rfl, by simp [terminalResolve]⟩

/-- C2 (amended): every Telegram approval resolves at most once; a timer
firing with no prior decision resolves it to rejected and removes it from the
pending map; a press while pending resolves it to the pressed decision
exactly once and removes it; a press after resolution is a no-op answered
"Expired"; any trace containing a timer firing has exactly one resolution;
the timeout window is 600000 ms.  The terminal Y/N approval resolves exactly
once per answer (lowercase answer starting with "y" approves, anything else
rejects) but has no timeout: with no answer it never resolves. -/
theorem C2_approval_once :
    (∀ events : List AEvent, (runA events).resolved.length ≤ 1) ∧
    (runA [.fire] = ⟨false, false, [false], 0⟩) ∧
    (∀ (s : AState) (d : Bool), s.pending = true →
      stepA s (.press d) = { s with armed := false, pending := false,
                                    resolved := s.resolved ++ [d] }) ∧
    (∀ (s : AState) (d : Bool), s.pending = false →
      stepA s (.press d) = { s with expired := s.expired + 1 }) ∧
    (∀ events : List AEvent, (runA events).resolved ≠ [] →
      (runA events).pending = false) ∧
    (∀ events : List AEvent, AEvent.fire ∈ events → (runA events).resolved.length = 1) ∧
    APPROVAL_TIMEOUT_MS = 600000 ∧
    (∀ a : List Char, (terminalResolve (some a)).isSome = true) ∧
    terminalResolve (some "Yes".toList) = some true ∧
    terminalResolve (some "no".toList) = some false ∧
    terminalResolve none = none := by
  refine ⟨?_, by decide, ?_, ?_, ?_, ?_, rfl, ?_, by decide, by decide, rfl⟩
  · intro events
    rcases runA_AInv events with ⟨hr, _, _⟩ | ⟨hr, _, _⟩
    · simp [hr]
    · omega
  · intro s d h
    simp [stepA, h]
  · intro s d h
    simp [stepA, h]
  · intro events h
    rcases runA_AInv events with ⟨hr, _, _⟩ | ⟨_, _, hp⟩
    · exact absurd hr h
    · exact hp
  · intro events hm
    have gen : ∀ (l : List AEvent) (s : AState), AInv s → AEvent.fire ∈ l →
        (l.foldl stepA s).resolved.length = 1 := by
      intro l
      induction l with
      | nil => intro s _ hmem; cases hmem
      | cons e rest ih =>
        intro s hs hmem
        cases e with
        | fire =>
          have hres : AInv (stepA s .fire) ∧ (stepA s .fire).resolved.length = 1 ∧
              (stepA s .fire).armed = false ∧ (stepA s .fire).pending = false := by
            rcases hs with ⟨hr, ha, hp⟩ | ⟨hr, ha, hp⟩
            · refine ⟨Or.inr ?_, ?_⟩ <;> simp [stepA, ha, hr]
            · refine ⟨Or.inr ?_, ?_⟩ <;> simp [stepA, ha, hr, hp]
          have keep := foldA_resolved_keeps rest (stepA s .fire) hres.2.2.1 hres.2.2.2
          simp only [List.foldl_cons]
          rw [keep.1]
          exact hres.2.1
        | press d =>
          have hmem2 : AEvent.fire ∈ rest := by
            rcases List.mem_cons.mp hmem with h | h
            · simp at h
            · exact h
          exact ih (stepA s (.press d)) (stepA_AInv s (.press d) hs) hmem2
    exact gen events AState.init (Or.inl ⟨rfl, rfl, rfl⟩) hm
  · intro a
    simp [terminalResolve]

theorem C2_approval_once_witness :
    stepA ⟨true, true, [], 0⟩ (.press true) = ⟨false, false, [true], 0⟩ ∧
    stepA ⟨false, false, [false], 0⟩ (.press true) = ⟨false, false, [false], 1⟩ ∧
    (runA [.press false, .fire]).pending = false ∧
    (runA [.press true, .fire, .press false]).resolved.length = 1 :=
  ⟨by simpa using C2_approval_once.2.2.1 ⟨true, true, [], 0⟩ true rfl,
   by simpa using C2_approval_once.2.2.2.1 ⟨false, false, [false], 0⟩ true rfl,
   C2_approval_once.2.2.2.2.1 [.press false, .fire] (by decide),
   C2_approval_once.2.2.2.2.2.1 [.press true, .fire, .press false] (by simp)⟩

/-- C9: the stream decoder is total and never fatal — parseLine is a total
function returning an optional message; a line whose JSON parse throws maps
to null, as does every skip-typed or message-less line; and the syncFile loop
is exactly a filterMap: it silently skips every line parseLine rejects and
handles the parsed messages in their original order, so a decode failure
contributes nothing that could be surfaced. -/
theorem C9_decoder_total :
    (∀ (nowIso : String) (lines : List (Except Unit Json)),
      syncProcess nowIso lines = lines.filterMap (parseLine nowIso)) ∧
    (∀ (nowIso : String) (e : Unit), parseLine nowIso (.error e) = none) ∧
    (∀ (nowIso : String) (d : Json), skipType d = true →
      parseLine nowIso (.ok d) = none) ∧
    (∀ (nowIso : String) (d : Json), getField d "message" = none →
      parseLine nowIso (.ok d) = none) := by
  refine ⟨?_, fun _ _ => rfl, ?_, ?_⟩
  · intro nowIso lines
    induction lines with
    | nil => rfl
    | cons l rest ih =>
      simp only [syncProcess, List.filterMap_cons]
      cases h : parseLine nowIso l <;> simp [h, ih]
  · intro nowIso d h
    simp [parseLine, h]
  · intro nowIso d h
    simp only [parseLine, h]
    split <;> rfl

theorem C9_decoder_total_witness :
    syncProcess "T" [.error (), .ok (.obj [("type", .str "system")]), .ok (.obj [])] = [] ∧
    parseLine "T" (.error ()) = none ∧
    parseLine "T" (.ok (.obj [("type", .str "system")])) = none ∧
    parseLine "T" (.ok (.obj [])) = none := by
  refine ⟨?_, C9_decoder_total.2.1 "T" (), C9_decoder_total.2.2.1 "T" _ rfl,
    C9_decoder_total.2.2.2 "T" _ rfl⟩
  rw [C9_decoder_total.1 "T" _]
  rfl

/-- C7: the Telegram segmenter detects a new turn exactly when the newly
received accumulated text is strictly shorter than the recorded turn text;
the terminal segmenter detects one exactly when a nonempty message uuid
differs from a nonempty recorded uuid, with the strictly-shorter heuristic
when the uuid is absent; on detection the old turn is archived and the new
text starts a fresh turn; and in Scenario B ("Hi" → "Hi there" → "Hi there!"
→ "Sure,") the segmenter archives "Hi there!" and the current turn becomes
"Sure,". -/
theorem C7_turn_detection :
    (∀ t cur : List Char, tgIsNewTurn t cur = true ↔ t.length < cur.length) ∧
    (∀ (s : FlushState) (t : List Char), tgIsNewTurn t s.currentTurnText = true →
      archiveStep s t = { s with allResponses := s.allResponses ++ [s.currentTurnText],
                                 currentTurnText := t, currentTurnSent := 0 }) ∧
    (∀ (s : FlushState) (t : List Char), tgIsNewTurn t s.currentTurnText = false →
      archiveStep s t = { s with currentTurnText := t }) ∧
    (∀ (u cu : String) (t cur : List Char),
      termIsNewTurn u cu t cur = true ↔
        ((u ≠ "" ∧ cu ≠ "" ∧ u ≠ cu) ∨ (u = "" ∧ t.length < cur.length))) ∧
    ((runT (initFlush 0) scenarioB).allResponses = ["Hi there!".toList] ∧
     (runT (initFlush 0) scenarioB).currentTurnText = "Sure,".toList ∧
     (runT (initFlush 0) scenarioB).sentChunks = []) := by
  refine ⟨?_, ?_, ?_, ?_, by decide⟩
  · intro t cur
    simp only [tgIsNewTurn, Bool.and_eq_true, decide_eq_true_eq, Bool.not_eq_true']
    constructor
    · exact fun h => h.1
    · intro h
      refine ⟨h, ?_⟩
      cases cur with
      | nil => simp at h
      | cons c l => rfl
  · intro s t h
    simp [archiveStep, h]
  · intro s t h
    simp [archiveStep, h]
  · intro u cu t cur
    simp only [termIsNewTurn, Bool.or_eq_true, Bool.and_eq_true, decide_eq_true_eq,
      Bool.not_eq_true', beq_eq_false_iff_ne, ne_eq, bne_iff_ne, beq_iff_eq]
    constructor
    · rintro (⟨⟨h1, h2⟩, h3⟩ | ⟨⟨h1, h2⟩, _⟩)
      · exact Or.inl ⟨h1, h2, h3⟩
      · exact Or.inr ⟨h1, h2⟩
    · rintro (⟨h1, h2, h3⟩ | ⟨h1, h2⟩)
      · exact Or.inl ⟨⟨h1, h2⟩, h3⟩
      · refine Or.inr ⟨⟨h1, h2⟩, ?_⟩
        cases cur with
        | nil => simp at h2
        | cons c l => rfl

theorem C7_turn_detection_witness :
    tgIsNewTurn "Sure,".toList "Hi there!".toList = true ∧
    archiveStep ⟨"Hi there!".toList, 3, 0, [], [], []⟩ "Sure,".toList =
      ⟨"Sure,".toList, 0, 0, ["Hi there!".toList], [], []⟩ ∧
    archiveStep ⟨"Hi".toList, 0, 0, [], [], []⟩ "Hi there".toList =
      ⟨"Hi there".toList, 0, 0, [], [], []⟩ ∧
    termIsNewTurn "u2" "u1" "x".toList "abc".toList = true := by
  refine ⟨?_, ?_, ?_, ?_⟩
  · exact (C7_turn_detection.1 _ _).2 (by decide)
  · simpa using C7_turn_detection.2.1 ⟨"Hi there!".toList, 3, 0, [], [], []⟩ "Sure,".toList (by decide)
  · simpa using C7_turn_detection.2.2.1 ⟨"Hi".toList, 0, 0, [], [], []⟩ "Hi there".toList (by decide)
  · exact (C7_turn_detection.2.2.2.1 "u2" "u1" "x".toList "abc".toList).2
      (Or.inl ⟨by decide, by decide, by decide⟩)

/-- C1 counterexample: the claim says every non-final flush cut coincides
with a paragraph break, sentence end or space.  False: for a 401-character
unsent tail of letters, the >400-characters trigger fires mid-stream, the cut
is the hard cut at the end of the unsent tail, the cut index sits at no word
boundary, and the emitted chunk ends with the letter "a" (mid-word). -/
theorem C1_counterexample :
    decide (hardCutTail.length > 400) = true ∧
    computeFlushEnd hardCutTail false = hardCutTail.length ∧
    claimBoundary hardCutTail (computeFlushEnd hardCutTail false) = false ∧
    (flushStep ⟨hardCutTail, 0, 0, [], [], []⟩ 0).sentChunks = [hardCutTail] ∧
    (jsTrim (hardCutTail.take (computeFlushEnd hardCutTail false))).getLast? = some 'a' := by
  set_option maxRecDepth 4000 in decide

/-- C1 (amended): for every flush emission, the chosen cut index either
falls on a word boundary — the character at the cut index is a space or a
newline, which covers the paragraph-break cut, the sentence-end cut and the
space cut — or it is the hard cut at the end of the unsent tail, the one
case that may split mid-word. -/
theorem C1_cut_boundary_or_end :
    ∀ (u : List Char) (hp : Bool),
      computeFlushEnd u hp = u.length ∨ claimBoundary u (computeFlushEnd u hp) = true := by
  intro u hp
  unfold computeFlushEnd
  cases hp with
  | true =>
    simp only [if_true]
    rcases jsLastIndexOf_cases u paraPat with hc | ⟨j, hj, _, hsw⟩
    · left
      rw [hc, if_neg (by norm_num)]
    · rw [hj]
      by_cases hpos : (0 : Int) < (j : Int)
      · right
        rw [if_pos hpos, Int.toNat_ofNat]
        simp only [paraPat] at hsw
        rw [startsWith_pair_eq] at hsw
        simp only [Bool.and_eq_true, beq_iff_eq] at hsw
        simp [claimBoundary, hsw.1]
      · left
        rw [if_neg hpos]
  | false =>
    simp only [Bool.false_eq_true, if_false]
    split
    · rename_i hcond
      right
      rcases max_choice (max (jsLastIndexOf u ['.', ' ']) (jsLastIndexOf u ['.', '\n']))
          (max (jsLastIndexOf u ['?', ' ']) (jsLastIndexOf u ['!', ' '])) with h1 | h1 <;>
        rw [h1] at hcond ⊢
      · rcases max_choice (jsLastIndexOf u ['.', ' ']) (jsLastIndexOf u ['.', '\n']) with
          h2 | h2 <;> rw [h2] at hcond ⊢
        · rcases jsLastIndexOf_cases u ['.', ' '] with hc | ⟨j, hj, _, _⟩
          · rw [hc] at hcond; omega
          · rw [hj, show ((j : Int) + 1) = ((j + 1 : ℕ) : Int) by push_cast; ring,
              Int.toNat_ofNat]
            exact pair_cut_boundary u '.' ' ' j hj (Or.inl rfl)
        · rcases jsLastIndexOf_cases u ['.', '\n'] with hc | ⟨j, hj, _, _⟩
          · rw [hc] at hcond; omega
          · rw [hj, show ((j : Int) + 1) = ((j + 1 : ℕ) : Int) by push_cast; ring,
              Int.toNat_ofNat]
            exact pair_cut_boundary u '.' '\n' j hj (Or.inr rfl)
      · rcases max_choice (jsLastIndexOf u ['?', ' ']) (jsLastIndexOf u ['!', ' ']) with
          h2 | h2 <;> rw [h2] at hcond ⊢
        · rcases jsLastIndexOf_cases u ['?', ' '] with hc | ⟨j, hj, _, _⟩
          · rw [hc] at hcond; omega
          · rw [hj, show ((j : Int) + 1) = ((j + 1 : ℕ) : Int) by push_cast; ring,
              Int.toNat_ofNat]
            exact pair_cut_boundary u '?' ' ' j hj (Or.inl rfl)
        · rcases jsLastIndexOf_cases u ['!', ' '] with hc | ⟨j, hj, _, _⟩
          · rw [hc] at hcond; omega
          · rw [hj, show ((j : Int) + 1) = ((j + 1 : ℕ) : Int) by push_cast; ring,
              Int.toNat_ofNat]
            exact pair_cut_boundary u '!' ' ' j hj (Or.inl rfl)
    · split
      · rename_i hcond
        right
        rcases jsLastIndexOf_cases u [' '] with hc | ⟨j, hj, _, _⟩
        · rw [hc] at hcond; omega
        · rw [hj, Int.toNat_ofNat]
          exact space_cut_boundary u j hj
      · left
        rfl

/-- C8 counterexample: the claim says the cut lands on the last paragraph
break whenever the paragraph-break trigger fired.  False when that break
starts at index 0: for a tail of "\n\n" followed by 81 letters the trigger
fires and the last paragraph break is at index 0, yet the code requires a
strictly positive break index and cuts at the end of the tail (83) instead of
at 0. -/
theorem C8_counterexample :
    (jsIncludes paraAtZeroTail paraPat && decide (paraAtZeroTail.length > 80)) = true ∧
    jsLastIndexOf paraAtZeroTail paraPat = 0 ∧
    computeFlushEnd paraAtZeroTail true = paraAtZeroTail.length ∧
    computeFlushEnd paraAtZeroTail true ≠ 0 := by
  set_option maxRecDepth 4000 in decide

/-- C8 (amended): the cut index equals the spec-side priority selection —
(1) the last paragraph break when the paragraph trigger fired, provided it is
at a positive index (a break starting at index 0 falls through to the hard
cut at the end); (2) otherwise one past the last sentence-ending pair when it
lies past 30% of the unsent length; (3) otherwise the last space past 30%;
(4) otherwise the end of the unsent tail.  In Scenario C — a 500-character
tail whose paragraph break sits at position 120 — the paragraph trigger fires
and the flush cuts at exactly 120. -/
theorem C8_cut_priority :
    (∀ (u : List Char) (hp : Bool), computeFlushEnd u hp = specCut u hp) ∧
    scenarioCTail.length = 500 ∧
    (jsIncludes scenarioCTail paraPat && decide (scenarioCTail.length > 80)) = true ∧
    jsLastIndexOf scenarioCTail paraPat = 120 ∧
    computeFlushEnd scenarioCTail true = 120 := by
  refine ⟨?_, ?_, ?_, ?_, ?_⟩
  case refine_2 => set_option maxRecDepth 4000 in decide
  case refine_3 => set_option maxRecDepth 4000 in decide
  case refine_4 => set_option maxRecDepth 4000 in decide
  case refine_5 => set_option maxRecDepth 4000 in decide
  intro u hp
  unfold computeFlushEnd specCut
  cases hp with
  | true =>
    simp only [if_true]
    rw [jsLastIndexOf_para_eq]
    cases hg : specGreatest (paraBreakAt u) u.length with
    | none =>
      rw [show optIdx none = -1 from rfl, if_neg (by omega)]
    | some i =>
      rw [show optIdx (some i) = (i : Int) from rfl]
      by_cases hpos : 0 < i
      · rw [if_pos (by exact_mod_cast hpos), Int.toNat_ofNat]
        show i = if 0 < i then i else u.length
        rw [if_pos hpos]
      · rw [if_neg (by exact_mod_cast hpos)]
        show u.length = if 0 < i then i else u.length
        rw [if_neg hpos]
  | false =>
    simp only [Bool.false_eq_true, if_false]
    rw [sentenceMax_eq]
    cases hg : specGreatest (sentenceEndAt u) u.length with
    | none =>
      rw [show optIdx none = -1 from rfl, if_neg (by omega)]
      exact space_branch_eq u
    | some i =>
      rw [show optIdx (some i) = (i : Int) from rfl]
      by_cases hc : 3 * u.length < 10 * i
      · rw [if_pos (by exact_mod_cast hc),
          show ((i : Int) + 1) = ((i + 1 : ℕ) : Int) by push_cast; ring, Int.toNat_ofNat]
        show i + 1 = if 3 * u.length < 10 * i then i + 1 else specCutSpace u
        rw [if_pos hc]
      · rw [if_neg (by exact_mod_cast hc)]
        show _ = if 3 * u.length < 10 * i then i + 1 else specCutSpace u
        rw [if_neg hc]
        exact space_branch_eq u

/-- C6: after every event of every run, 0 ≤ sentOffset ≤ len(currentTurnText)
(the lower bound holds by the ℕ type); every emitted chunk covers a
well-formed interval of its turn; the emission log is ordered — non-decreasing
turn indices, and within one turn each chunk starts exactly where the previous
one stopped, so already-sent text is never re-emitted and chunks go out in
non-decreasing sentOffset order, the final Result flush included (it covers
[sentOffset, len)); and a text event that does not open a new turn never
decreases sentOffset — within a single turn the offset only advances, by the
cut length at each emission. -/
theorem C6_sent_offset_invariant :
    (∀ (t0 : ℕ) (events : List TEvent),
      (runT (initFlush t0) events).currentTurnSent ≤
        (runT (initFlush t0) events).currentTurnText.length ∧
      (∀ r ∈ (runT (initFlush t0) events).log, r.2.1 ≤ r.2.2) ∧
      List.Chain' logOrd (runT (initFlush t0) events).log) ∧
    (∀ (s : FlushState) (t : List Char) (now : ℕ),
      tgIsNewTurn t s.currentTurnText = false →
      s.currentTurnSent ≤ (stepT s (.text t now)).currentTurnSent) := by
  constructor
  · intro t0 events
    obtain ⟨h1, h2, h3, _⟩ := runT_FInv t0 events
    exact ⟨h1, fun r hr => (h2 r hr).2, h3⟩
  · intro s t now h
    simp only [stepT]
    split
    · exact le_refl _
    · have ha : (archiveStep s t).currentTurnSent = s.currentTurnSent := by
        unfold archiveStep
        rw [if_neg (by simp [h])]
      calc s.currentTurnSent = (archiveStep s t).currentTurnSent := ha.symm
        _ ≤ _ := flushStep_sent_mono _ _

theorem C6_sent_offset_invariant_witness :
    (runT (initFlush 0) [.text hardCutTail 0, .result]).currentTurnSent ≤
      (runT (initFlush 0) [.text hardCutTail 0, .result]).currentTurnText.length ∧
    (⟨"ab".toList, 1, 0, [], [], []⟩ : FlushState).currentTurnSent ≤
      (stepT ⟨"ab".toList, 1, 0, [], [], []⟩ (.text "abcd".toList 0)).currentTurnSent :=
  ⟨(C6_sent_offset_invariant.1 0 [.text hardCutTail 0, .result]).1,
   C6_sent_offset_invariant.2 ⟨"ab".toList, 1, 0, [], [], []⟩ "abcd".toList 0 (by decide)⟩

end Relay
